import Mathlib

/-!
Verification development for the PILA payment-date calculator of the
`control-accesos-dev` repository: the Colombian holiday engine and
business-day calendar (`lib/colombia-holidays.ts`) and the NIT-to-due-date
mapping logic (`lib/pila-utils.ts`).

Modelling conventions:
* A JavaScript `Date` produced by `new Date(y, m, d)` (always at local
  midnight in this codebase) is modelled as a single integer: the number of
  days since 1970-01-01 in the proleptic Gregorian calendar.  `new Date(y, m, d)`
  normalizes out-of-range month/day values by pure day arithmetic, which is
  exactly what `mkDate` below does.  `date.setDate(date.getDate() + k)` is
  addition of `k` days, i.e. `+ k` on the day number.
* `Date.prototype.getDay` (0 = Sunday .. 6 = Saturday) is `dayOfWeek`,
  derived from the fact that 1970-01-01 was a Thursday.
* `getFullYear`/`getMonth`/`getDate` are the civil-calendar components of the
  day number (`yearOf`/`monthOf`/`dayOf`), computed by the standard
  Euclidean-affine conversion over 400-year eras.
* JavaScript `%` is truncated remainder (`Int.tmod`); `Math.floor(a / b)`
  with `b > 0` is floor division, which for positive divisors coincides with
  Euclidean division (Lean's `/` on `Int`).
-/

namespace ControlAccesos

/-- Gregorian leap-year predicate (platform model of JS `Date`). -/
def isLeap (y : Int) : Bool :=
  (y % 4 == 0 && y % 100 != 0) || y % 400 == 0

/-- Day number (days since 1970-01-01) of January 1 of year `y`. -/
def jan1 (y : Int) : Int :=
  365 * y + (y - 1) / 4 - (y - 1) / 100 + (y - 1) / 400 - 719527

/-- Cumulative number of days of year `y` that precede month `m` (0-based). -/
def monthOffset (y : Int) (m : Int) : Int :=
  let L : Int := if isLeap y then 1 else 0
  if m = 0 then 0
  else if m = 1 then 31
  else if m = 2 then 59 + L
  else if m = 3 then 90 + L
  else if m = 4 then 120 + L
  else if m = 5 then 151 + L
  else if m = 6 then 181 + L
  else if m = 7 then 212 + L
  else if m = 8 then 243 + L
  else if m = 9 then 273 + L
  else if m = 10 then 304 + L
  else 334 + L

/-- Day number of the first day of the month with absolute month index `t`
(`t = 12 * year + month`, month 0-based).  Out-of-range 0-based months in
`new Date(y, m, 1)` normalize exactly this way. -/
def firstDayOfMonthT (t : Int) : Int :=
  jan1 (t / 12) + monthOffset (t / 12) (t % 12)

/-- Model of `new Date(y, m, d)` at local midnight (month 0-based), as a day
number.  Out-of-range `m` and `d` normalize by day arithmetic, as in JS. -/
def mkDate (y m d : Int) : Int :=
  firstDayOfMonthT (12 * y + m) + (d - 1)

/-- Model of `Date.prototype.getDay`: 0 = Sunday .. 6 = Saturday.
1970-01-01 (day 0) was a Thursday (4). -/
def dayOfWeek (d : Int) : Int :=
  (d + 4) % 7

/-- Civil triple (year, month 0-based, day 1-based) of a day number: the
standard era-based inverse of the Gregorian conversion (platform model of
`getFullYear`/`getMonth`/`getDate`). -/
def civilOfDay (z : Int) : Int × Int × Int :=
  let z' := z + 719468
  let era := z' / 146097
  let doe := z' - era * 146097
  let yoe := (doe - doe / 1460 + doe / 36524 - doe / 146096) / 365
  let y' := yoe + era * 400
  let doy := doe - (365 * yoe + yoe / 4 - yoe / 100)
  let mp := (5 * doy + 2) / 153
  let d := doy - (153 * mp + 2) / 5 + 1
  let m := mp + (if mp < 10 then 3 else -9)
  (y' + (if m ≤ 2 then 1 else 0), m - 1, d)

/-- `getFullYear` of a day number. -/
def yearOf (z : Int) : Int := (civilOfDay z).1

/-- `getMonth` (0-based) of a day number. -/
def monthOf (z : Int) : Int := (civilOfDay z).2.1

/-- `getDate` (1-based day of month) of a day number. -/
def dayOf (z : Int) : Int := (civilOfDay z).2.2

/-! ## Holiday engine (`lib/colombia-holidays.ts`) -/

/-- `Holiday.type` in `colombia-holidays.ts`: `'fixed' | 'easter' | 'movable'`. -/
inductive HolidayType where
  | fixed
  | easter
  | movable
  deriving DecidableEq, Repr

/-- A holiday entry: date (as a day number) plus display name and category. -/
structure Holiday where
  date : Int
  name : String
  type : HolidayType
  deriving DecidableEq, Repr

/-- `calculateEaster` (Gauss algorithm), returning the day number of
`new Date(year, month, day)` computed by the source.  JS `%` is `Int.tmod`;
`Math.floor(· / k)` with `k > 0` is `Int.ediv`. -/
def calculateEaster (year : Int) : Int :=
  let a := year.tmod 19
  let b := year / 100
  let c := year.tmod 100
  let d := b / 4
  let e := b.tmod 4
  let f := (b + 8) / 25
  let g := (b - f + 1) / 3
  let h := (19 * a + b - d - g + 15).tmod 30
  let i := c / 4
  let k := c.tmod 4
  let l := (32 + 2 * e + 2 * i - h - k).tmod 7
  let m := (a + 11 * h + 22 * l) / 451
  let month := (h + l - 7 * m + 114) / 31 - 1
  let day := (h + l - 7 * m + 114).tmod 31 + 1
  mkDate year month day

/-- `moveToMonday`: shift a date to the following Monday (Emiliani law).
Sunday moves +1 day; any non-Monday weekday moves `8 - weekday` days;
Monday is unchanged. -/
def moveToMonday (date : Int) : Int :=
  let dayOfWeek' := dayOfWeek date
  if dayOfWeek' = 0 then date + 1
  else if dayOfWeek' ≠ 1 then date + (8 - dayOfWeek')
  else date

/-- The ordering JS's `holidays.sort((a, b) => a.date.getTime() - b.date.getTime())`
sorts by: comparison of the dates. -/
def holidayLE (a b : Holiday) : Prop := a.date ≤ b.date

instance : DecidableRel holidayLE := fun a b => inferInstanceAs (Decidable (a.date ≤ b.date))

/-- The holiday entries `getColombianHolidays` pushes, in source order:
6 fixed, 7 movable (Emiliani-shifted), 6 Easter-based. -/
def colombianHolidaysUnsorted (year : Int) : List Holiday :=
  let easter := calculateEaster year
  [ { date := mkDate year 0 1,  name := "Año Nuevo", type := .fixed },
      { date := mkDate year 4 1,  name := "Día del Trabajo", type := .fixed },
      { date := mkDate year 6 20, name := "Día de la Independencia", type := .fixed },
      { date := mkDate year 7 7,  name := "Batalla de Boyacá", type := .fixed },
      { date := mkDate year 11 8, name := "Inmaculada Concepción", type := .fixed },
      { date := mkDate year 11 25, name := "Navidad", type := .fixed },
      { date := moveToMonday (mkDate year 0 6),  name := "Reyes Magos", type := .movable },
      { date := moveToMonday (mkDate year 2 19), name := "San José", type := .movable },
      { date := moveToMonday (mkDate year 5 29), name := "San Pedro y San Pablo", type := .movable },
      { date := moveToMonday (mkDate year 7 15), name := "Asunción de la Virgen", type := .movable },
      { date := moveToMonday (mkDate year 9 12), name := "Día de la Raza", type := .movable },
      { date := moveToMonday (mkDate year 10 1), name := "Todos los Santos", type := .movable },
      { date := moveToMonday (mkDate year 10 11), name := "Independencia de Cartagena", type := .movable },
      { date := easter - 3, name := "Jueves Santo", type := .easter },
      { date := easter - 2, name := "Viernes Santo", type := .easter },
      { date := easter, name := "Domingo de Pascua", type := .easter },
      { date := moveToMonday (easter + 39), name := "Ascensión del Señor", type := .easter },
      { date := moveToMonday (easter + 60), name := "Corpus Christi", type := .easter },
      { date := moveToMonday (easter + 68), name := "Sagrado Corazón", type := .easter } ]

/-- `getColombianHolidays`: the Colombian holidays of a year, pushed in
source order and then sorted by date.  The JS comparator sort
`holidays.sort((a, b) => a.date.getTime() - b.date.getTime())` is modelled
by `List.insertionSort` on `holidayLE` (a sort by date that permutes the
pushed list). -/
def getColombianHolidays (year : Int) : List Holiday :=
  (colombianHolidaysUnsorted year).insertionSort holidayLE

/-- `isHoliday`: the date matches some holiday of its year, compared by
calendar year/month/day (all dates are local midnights, so this is the
source's triple comparison). -/
def isHoliday (date : Int) : Bool :=
  let year := yearOf date
  let holidays := getColombianHolidays year
  holidays.any fun holiday =>
    yearOf holiday.date == yearOf date &&
    monthOf holiday.date == monthOf date &&
    dayOf holiday.date == dayOf date

/-- `isBusinessDay`: not Saturday, not Sunday, not a holiday. -/
def isBusinessDay (date : Int) : Bool :=
  let dayOfWeek' := dayOfWeek date
  if dayOfWeek' = 0 || dayOfWeek' = 6 then false
  else if isHoliday date then false
  else true

/-! ## Business-day calendar (`lib/colombia-holidays.ts`, continued) -/

/-- The list of consecutive day numbers `a, a+1, ..., a+k-1`. -/
def dayRangeAux (a : Int) : Nat → List Int
  | 0 => []
  | k + 1 => a :: dayRangeAux (a + 1) k

/-- The closed interval of day numbers `[a, b]` as an ascending list (empty
when `a > b`): the days visited by the source's
`while (current <= endDate) { ...; current.setDate(current.getDate() + 1) }`
loops. -/
def dayRange (a b : Int) : List Int :=
  dayRangeAux a (b + 1 - a).toNat

/-- `countBusinessDays(startDate, endDate)`: walk the days of `[start, end]`
and count those that are business days. -/
def countBusinessDays (startDate endDate : Int) : Int :=
  ((dayRange startDate endDate).filter isBusinessDay).length

/-- The counting scan of `getNthBusinessDayOfMonth`: walk `l` with a running
counter `c` of business days seen so far; return the day where the counter
reaches `n`, or `none` when the scan ends first. -/
def findNthAux (p : Int → Bool) (n : Int) : List Int → Int → Option Int
  | [], _ => none
  | d :: ds, c =>
    if p d then
      if c + 1 = n then some d else findNthAux p n ds (c + 1)
    else findNthAux p n ds c

/-- `getNthBusinessDayOfMonth(year, month, n)`: scan the days of the month
(`new Date(year, month, 1)` through `new Date(year, month + 1, 0)`) counting
business days; return the day where the count reaches `n`, else `null`. -/
def getNthBusinessDayOfMonth (year month n : Int) : Option Int :=
  findNthAux isBusinessDay n (dayRange (mkDate year month 1) (mkDate year (month + 1) 0)) 0

/-- `getBusinessDaysOfMonth(year, month)`: all business days of the month,
ascending. -/
def getBusinessDaysOfMonth (year month : Int) : List Int :=
  (dayRange (mkDate year month 1) (mkDate year (month + 1) 0)).filter isBusinessDay

/-! ## NIT-to-deadline table and PILA calculator (`lib/pila-utils.ts`) -/

/-- One row of `LIMITE_SEG_SOCIAL`: required business days and NIT suffix. -/
structure LimiteRow where
  DIAS_HABILES : Int
  DIGITOS_NIT : String
  deriving DecidableEq, Repr

/-- The hardcoded `LIMITE_SEG_SOCIAL` table, in source order. -/
def LIMITE_SEG_SOCIAL : List LimiteRow :=
  [
    LimiteRow.mk 5 "22", LimiteRow.mk 5 "23", LimiteRow.mk 2 "00", LimiteRow.mk 2 "01",
    LimiteRow.mk 2 "02", LimiteRow.mk 2 "03", LimiteRow.mk 2 "04", LimiteRow.mk 2 "05",
    LimiteRow.mk 2 "06", LimiteRow.mk 2 "07", LimiteRow.mk 3 "08", LimiteRow.mk 3 "09",
    LimiteRow.mk 3 "10", LimiteRow.mk 3 "11", LimiteRow.mk 3 "12", LimiteRow.mk 3 "13",
    LimiteRow.mk 3 "14", LimiteRow.mk 4 "15", LimiteRow.mk 4 "16", LimiteRow.mk 4 "17",
    LimiteRow.mk 4 "18", LimiteRow.mk 4 "19", LimiteRow.mk 4 "20", LimiteRow.mk 4 "21",
    LimiteRow.mk 5 "24", LimiteRow.mk 5 "25", LimiteRow.mk 5 "26", LimiteRow.mk 5 "27",
    LimiteRow.mk 5 "28", LimiteRow.mk 6 "29", LimiteRow.mk 6 "30", LimiteRow.mk 6 "31",
    LimiteRow.mk 6 "32", LimiteRow.mk 6 "33", LimiteRow.mk 6 "34", LimiteRow.mk 6 "35",
    LimiteRow.mk 7 "36", LimiteRow.mk 7 "37", LimiteRow.mk 7 "38", LimiteRow.mk 7 "39",
    LimiteRow.mk 7 "40", LimiteRow.mk 7 "41", LimiteRow.mk 7 "42", LimiteRow.mk 8 "43",
    LimiteRow.mk 8 "44", LimiteRow.mk 8 "45", LimiteRow.mk 8 "46", LimiteRow.mk 8 "47",
    LimiteRow.mk 8 "48", LimiteRow.mk 8 "49", LimiteRow.mk 9 "50", LimiteRow.mk 9 "51",
    LimiteRow.mk 9 "52", LimiteRow.mk 9 "53", LimiteRow.mk 9 "54", LimiteRow.mk 9 "55",
    LimiteRow.mk 9 "56", LimiteRow.mk 10 "57", LimiteRow.mk 10 "58", LimiteRow.mk 10 "59",
    LimiteRow.mk 10 "60", LimiteRow.mk 10 "61", LimiteRow.mk 10 "62", LimiteRow.mk 10 "63",
    LimiteRow.mk 11 "64", LimiteRow.mk 11 "65", LimiteRow.mk 11 "66", LimiteRow.mk 11 "67",
    LimiteRow.mk 11 "68", LimiteRow.mk 11 "69", LimiteRow.mk 12 "70", LimiteRow.mk 12 "71",
    LimiteRow.mk 12 "72", LimiteRow.mk 12 "73", LimiteRow.mk 12 "74", LimiteRow.mk 12 "75",
    LimiteRow.mk 13 "76", LimiteRow.mk 13 "77", LimiteRow.mk 13 "78", LimiteRow.mk 13 "79",
    LimiteRow.mk 13 "80", LimiteRow.mk 13 "81", LimiteRow.mk 14 "82", LimiteRow.mk 14 "83",
    LimiteRow.mk 14 "84", LimiteRow.mk 14 "85", LimiteRow.mk 14 "86", LimiteRow.mk 14 "87",
    LimiteRow.mk 15 "88", LimiteRow.mk 15 "89", LimiteRow.mk 15 "90", LimiteRow.mk 15 "91",
    LimiteRow.mk 15 "92", LimiteRow.mk 15 "93", LimiteRow.mk 16 "94", LimiteRow.mk 16 "95",
    LimiteRow.mk 16 "96", LimiteRow.mk 16 "97", LimiteRow.mk 16 "98", LimiteRow.mk 16 "99" ]

/-- JS `s.slice(-2)` on a string (as a character list): the last two
characters (the whole string when it has fewer than two). -/
def sliceLastTwo (s : List Char) : List Char :=
  s.drop (s.length - 2)

/-- JS `s.padStart(2, '0')`: left-pad with `'0'` to length (at least) 2. -/
def padStartTwo (s : List Char) : List Char :=
  List.replicate (2 - s.length) '0' ++ s

/-- The lookup key `getDiasHabilesPago`/`calcularFechasPagoPila` compute from
`String(nit)`: `nitStr.slice(-2).padStart(2, '0')`. -/
def nitKey (nitStr : List Char) : List Char :=
  padStartTwo (sliceLastTwo nitStr)

/-- `getDiasHabilesPago(nit)`: look the key up in `LIMITE_SEG_SOCIAL`;
default to 10 when absent.  The input is `String(nit)` as a character
list. -/
def getDiasHabilesPago (nitStr : List Char) : Int :=
  let ultimosDigitos := nitKey nitStr
  let limiteSeg := LIMITE_SEG_SOCIAL.find? fun item => item.DIGITOS_NIT.data == ultimosDigitos
  match limiteSeg with
  | none => 10
  | some limiteSeg => limiteSeg.DIAS_HABILES

/-- `FechaCorte.estado` values produced by the calculator. -/
inductive Estado where
  | success
  | warning
  | normal
  deriving DecidableEq, Repr

/-- A `FechaCorte` as built by `calcularFechasConDiasHabiles`.  `fecha` holds
the due date as a day number: the source stores `formatDate(diaPago)`
(`DD/MM/YYYY`) and later re-parses it with `split('/')`/`new Date`, a
round-trip that is the identity on the calendar date.  `mes` is the absolute
month index the entry was generated for (the source's `mesTexto` month/year
label renders exactly this month). -/
structure FechaCorte where
  id : Int
  fecha : Int
  estado : Estado
  mes : Int
  deriving DecidableEq, Repr

/-- `calcularDiasHastaFecha(fecha)` with the reference date `hoy` explicit:
both dates are local midnights, so `Math.ceil` of the millisecond difference
over a day is the exact day difference. -/
def calcularDiasHastaFecha (hoy fecha : Int) : Int :=
  fecha - hoy

/-- The provisional `estado` computed inside the month loop from
`diasHastaFecha`. -/
def estadoProvisional (hoy fecha : Int) : Estado :=
  let diasHastaFecha := calcularDiasHastaFecha hoy fecha
  if diasHastaFecha < 0 then .normal
  else if diasHastaFecha ≤ 10 then .warning
  else .normal

/-- The ascending list of absolute month indices `tStart, ..., tEnd` the
month loop visits: `while (anio < anioFin || (anio === anioFin && mes <= mesFin))`
advancing one month at a time is exactly `t = 12*anio + mes` running from
`tStart` to `tEnd`. -/
def monthsList (tStart tEnd : Int) : List Int :=
  (List.range (tEnd + 1 - tStart).toNat).map fun i : Nat => tStart + (i : Int)

/-- One iteration of the month loop, sans id: the month's Nth business day,
kept only when it lies within `[inicioVisita, finVisita]`. -/
def emitMonth (inicioVisita finVisita diasHabilesRequeridos : Int) (t : Int) : Option Int :=
  match getNthBusinessDayOfMonth (t / 12) (t % 12) diasHabilesRequeridos with
  | none => none
  | some diaPago =>
    if inicioVisita ≤ diaPago ∧ diaPago ≤ finVisita then some diaPago else none

/-- The month loop of `calcularFechasConDiasHabiles`: visit the months in
order, carrying `idCounter`, and push a `FechaCorte` with provisional status
for each month whose Nth business day falls within the visit period. -/
def loopMeses (inicioVisita finVisita diasHabilesRequeridos hoy : Int) :
    List Int → Int → List FechaCorte
  | [], _ => []
  | t :: ts, idCounter =>
    match emitMonth inicioVisita finVisita diasHabilesRequeridos t with
    | some diaPago =>
      { id := idCounter, fecha := diaPago,
        estado := estadoProvisional hoy diaPago, mes := t }
        :: loopMeses inicioVisita finVisita diasHabilesRequeridos hoy ts (idCounter + 1)
    | none => loopMeses inicioVisita finVisita diasHabilesRequeridos hoy ts idCounter

/-- The final pass of `calcularFechasConDiasHabiles`: scan forward and mark
the first entry whose date is on-or-after `hoy` as `success`, then stop. -/
def markSuccess (hoy : Int) : List FechaCorte → List FechaCorte
  | [] => []
  | f :: fs =>
    if f.fecha ≥ hoy then { f with estado := .success } :: fs
    else f :: markSuccess hoy fs

/-- The list `fechasPago` holds when the month loop of
`calcularFechasConDiasHabiles` finishes, before the final `success`-marking
pass: the loop runs from the month of `inicioVisita`
(`inicioVisita.getMonth()`/`getFullYear()`) through the month of
`finVisita`, with `idCounter` starting at 1. -/
def provisionalFechas (inicioVisita finVisita diasHabilesRequeridos hoy : Int) :
    List FechaCorte :=
  loopMeses inicioVisita finVisita diasHabilesRequeridos hoy
    (monthsList (12 * yearOf inicioVisita + monthOf inicioVisita)
      (12 * yearOf finVisita + monthOf finVisita)) 1

/-- `calcularFechasConDiasHabiles(inicioVisita, finVisita, diasHabilesRequeridos)`
with the wall-clock reference `hoy` (local midnight) explicit: run the month
loop from the month of `inicioVisita` through the month of `finVisita`, then
mark the first non-past entry as `success`. -/
def calcularFechasConDiasHabiles (inicioVisita finVisita diasHabilesRequeridos hoy : Int) :
    List FechaCorte :=
  markSuccess hoy (provisionalFechas inicioVisita finVisita diasHabilesRequeridos hoy)

/-! ## Basic lemmas about the date model -/

theorem isLeap_iff (y : Int) :
    isLeap y = true ↔ (y % 4 = 0 ∧ ¬ y % 100 = 0) ∨ y % 400 = 0 := by
  simp [isLeap]

theorem jan1_succ (y : Int) :
    jan1 (y + 1) = jan1 y + 365 + (if isLeap y then 1 else 0) := by
  by_cases h : isLeap y = true
  · rw [if_pos h]
    rw [isLeap_iff] at h
    unfold jan1
    omega
  · rw [if_neg h]
    rw [isLeap_iff] at h
    push_neg at h
    unfold jan1
    omega

theorem monthOffset_succ_lt (y m : Int) (h0 : 0 ≤ m) (h1 : m ≤ 10) :
    monthOffset y m < monthOffset y (m + 1) := by
  have hm : m = 0 ∨ m = 1 ∨ m = 2 ∨ m = 3 ∨ m = 4 ∨ m = 5 ∨ m = 6 ∨ m = 7 ∨
      m = 8 ∨ m = 9 ∨ m = 10 := by omega
  rcases hm with h | h | h | h | h | h | h | h | h | h | h <;>
    subst h <;>
    simp only [monthOffset] <;>
    norm_num <;>
    by_cases hL : isLeap y = true <;>
    simp [hL]

theorem monthOffset_eleven (y : Int) :
    monthOffset y 11 = 334 + (if isLeap y then 1 else 0) := by
  by_cases hL : isLeap y = true <;> simp [monthOffset, hL]

theorem monthOffset_zero (y : Int) : monthOffset y 0 = 0 := by
  simp [monthOffset]

theorem firstDayOfMonthT_lt_succ (t : Int) : firstDayOfMonthT t < firstDayOfMonthT (t + 1) := by
  have hdec : 12 * (t / 12) + t % 12 = t ∧ 0 ≤ t % 12 ∧ t % 12 < 12 := by omega
  by_cases h11 : t % 12 = 11
  · have hq : (t + 1) / 12 = t / 12 + 1 ∧ (t + 1) % 12 = 0 := by omega
    unfold firstDayOfMonthT
    rw [hq.1, hq.2, h11, monthOffset_zero, monthOffset_eleven, jan1_succ]
    by_cases hL : isLeap (t / 12) = true <;> simp [hL] <;> omega
  · have hq : (t + 1) / 12 = t / 12 ∧ (t + 1) % 12 = t % 12 + 1 := by omega
    unfold firstDayOfMonthT
    rw [hq.1, hq.2]
    have := monthOffset_succ_lt (t / 12) (t % 12) (by omega) (by omega)
    omega

theorem firstDayOfMonthT_strictMono : StrictMono firstDayOfMonthT :=
  strictMono_int_of_lt_succ firstDayOfMonthT_lt_succ

/-! ## C6: the Emiliani shift -/

/-- **C6.** The Emiliani shift `moveToMonday` returns a Monday unchanged,
moves a Sunday forward 1 day and every other weekday forward `8 - weekday`
days, and its result always falls on a Monday. -/
theorem moveToMonday_spec (d : Int) :
    moveToMonday d =
      (if dayOfWeek d = 0 then d + 1
       else if dayOfWeek d = 1 then d
       else d + (8 - dayOfWeek d)) ∧
    dayOfWeek (moveToMonday d) = 1 := by
  simp only [moveToMonday, dayOfWeek]
  constructor
  · split_ifs <;> omega
  · split_ifs <;> omega

/-! ## C1: shape of the holiday list -/

instance : IsTotal Holiday holidayLE := ⟨fun a b => le_total a.date b.date⟩

instance : IsTrans Holiday holidayLE := ⟨fun _ _ _ hab hbc => le_trans hab hbc⟩

set_option maxHeartbeats 4000000 in
/-- **C1 (counterexample).** The claim "`getColombianHolidays(Y)` returns
exactly 18 holidays, sorted strictly ascending with no duplicate dates"
fails at `Y = 2038`: the engine always pushes 19 entries (6 fixed, 7
movable, 6 Easter-based — Easter Sunday itself is included), and in 2038
two holidays share the date July 5 (San Pedro y San Pablo's Emiliani Monday
coincides with Sagrado Corazón = Easter + 71). -/
theorem getColombianHolidays_2038_not_strict :
    (getColombianHolidays 2038).length ≠ 18 ∧
    ¬ (getColombianHolidays 2038).Pairwise (fun a b => a.date < b.date) := by
  constructor
  · decide
  · decide

/-- **C1 (amended).** For every year, `getColombianHolidays` returns exactly
19 holidays, sorted non-decreasing by date; duplicate dates can occur (see
the 2038 counterexample), so the order is not strict in general. -/
theorem getColombianHolidays_length_sorted (year : Int) :
    (getColombianHolidays year).length = 19 ∧
    (getColombianHolidays year).Sorted holidayLE := by
  constructor
  · show ((colombianHolidaysUnsorted year).insertionSort holidayLE).length = 19
    rw [List.length_insertionSort]
    rfl
  · exact List.sorted_insertionSort holidayLE _

/-! ## C5: Easter and the Easter-relative holidays -/

/-- **C5.** The Gauss computation gives Easter 2024-03-31 and 2025-04-20,
and for every year the engine's "Jueves Santo" entry is exactly 3 days
before Easter and its "Viernes Santo" entry exactly 2 days before Easter
(those entries exist, and they are the only entries with those names). -/
theorem easter_holyWeek_spec :
    calculateEaster 2024 = mkDate 2024 2 31 ∧
    calculateEaster 2025 = mkDate 2025 3 20 ∧
    ∀ year : Int,
      Holiday.mk (calculateEaster year - 3) "Jueves Santo" HolidayType.easter ∈
        getColombianHolidays year ∧
      Holiday.mk (calculateEaster year - 2) "Viernes Santo" HolidayType.easter ∈
        getColombianHolidays year ∧
      ∀ h ∈ getColombianHolidays year,
        (h.name = "Jueves Santo" → h.date = calculateEaster year - 3) ∧
        (h.name = "Viernes Santo" → h.date = calculateEaster year - 2) := by
  refine ⟨by decide, by decide, fun year => ⟨?_, ?_, ?_⟩⟩
  · rw [getColombianHolidays, List.mem_insertionSort]
    simp [colombianHolidaysUnsorted]
  · rw [getColombianHolidays, List.mem_insertionSort]
    simp [colombianHolidaysUnsorted]
  · intro h hm
    rw [getColombianHolidays, List.mem_insertionSort] at hm
    simp only [colombianHolidaysUnsorted, List.mem_cons, List.not_mem_nil, or_false] at hm
    rcases hm with rfl | rfl | rfl | rfl | rfl | rfl | rfl | rfl | rfl | rfl | rfl | rfl |
      rfl | rfl | rfl | rfl | rfl | rfl | rfl <;>
      refine ⟨fun hname => ?_, fun hname => ?_⟩ <;>
      dsimp only at hname ⊢ <;>
      first
        | rfl
        | exact absurd hname (by decide)

/-- Witness for C5: instantiating the universally quantified part at 2024
on the concrete "Jueves Santo" entry (Easter 2024 − 3 = 2024-03-28). -/
theorem easter_holyWeek_witness :
    Holiday.mk (mkDate 2024 2 28) "Jueves Santo" HolidayType.easter ∈ getColombianHolidays 2024 ∧
    mkDate 2024 2 28 = calculateEaster 2024 - 3 := by
  have h := (easter_holyWeek_spec.2.2 2024).2.2
    (Holiday.mk (mkDate 2024 2 28) "Jueves Santo" HolidayType.easter) (by decide)
  exact ⟨by decide, h.1 rfl⟩

/-! ## C8 and C4: the NIT-to-deadline lookup -/

/-- **C8.** The deadline lookup is total: suffix "56" maps to 9, "00" to 2,
the one-character input "1" pads to "01" and maps to 2, and any input whose
computed key is absent from the table yields the default 10. -/
theorem getDiasHabilesPago_total :
    getDiasHabilesPago "900123456".data = 9 ∧
    getDiasHabilesPago "12345600".data = 2 ∧
    getDiasHabilesPago "1".data = 2 ∧
    ∀ s : List Char,
      LIMITE_SEG_SOCIAL.find? (fun item => item.DIGITOS_NIT.data == nitKey s) = none →
      getDiasHabilesPago s = 10 := by
  refine ⟨by decide, by decide, by decide, fun s h => ?_⟩
  simp only [getDiasHabilesPago, h]

/-- Witness for C8: the input "123-4" computes key "-4", absent from the
table, so the default 10 is returned. -/
theorem getDiasHabilesPago_total_witness :
    getDiasHabilesPago "123-4".data = 10 :=
  getDiasHabilesPago_total.2.2.2 "123-4".data (by decide)

/-- The key normalization as the specification words it ("normalize input to
its decimal-digit string form, take the last 2 characters, left-pad with '0'
to length 2"): non-digit characters are removed before slicing.  Stated from
the spec for comparison with the source's `nitKey`. -/
def specNitKey (s : List Char) : List Char :=
  padStartTwo (sliceLastTwo (s.filter Char.isDigit))

/-- **C4 (counterexample).** The claim fails on inputs with non-digit
characters among the last two: for "123-4" the code's key keeps the dash
(`"-4"`), the digit-derived key would be `"34"`, and the lookup then misses
the table and falls back to 10. -/
theorem nitKey_keeps_nondigits :
    nitKey "123-4".data = ['-', '4'] ∧
    specNitKey "123-4".data = ['3', '4'] ∧
    nitKey "123-4".data ≠ specNitKey "123-4".data ∧
    getDiasHabilesPago "123-4".data = 10 := by decide

/-- **C4 (amended).** The lookup key is the last 2 characters of the raw
string form of the input, left-padded with '0' to length 2 — non-digit
characters are not stripped.  The key always has length 2, it agrees with
the spec's digit-only normalization whenever the input is all digits, and
the table lookup uses exactly this key. -/
theorem nitKey_spec (s : List Char) :
    nitKey s = padStartTwo (sliceLastTwo s) ∧
    (nitKey s).length = 2 ∧
    ((∀ c ∈ s, c.isDigit = true) → nitKey s = specNitKey s) ∧
    getDiasHabilesPago s =
      (match LIMITE_SEG_SOCIAL.find? (fun item => item.DIGITOS_NIT.data == nitKey s) with
       | none => 10
       | some r => r.DIAS_HABILES) := by
  refine ⟨rfl, ?_, fun hdig => ?_, rfl⟩
  · simp only [nitKey, padStartTwo, sliceLastTwo, List.length_append,
      List.length_replicate, List.length_drop]
    omega
  · unfold specNitKey
    rw [List.filter_eq_self.mpr hdig]
    rfl

/-- Witness for C4 (amended): on the all-digit input "900123456" the code's
key and the spec's digit-only key agree. -/
theorem nitKey_spec_witness :
    nitKey "900123456".data = specNitKey "900123456".data :=
  (nitKey_spec "900123456".data).2.2.1 (by decide)

/-! ## Interval lemmas for the day-walking loops -/

theorem dayRangeAux_mem : ∀ (k : Nat) (a x : Int), x ∈ dayRangeAux a k ↔ a ≤ x ∧ x < a + k := by
  intro k
  induction k with
  | zero =>
    intro a x
    simp only [dayRangeAux, List.not_mem_nil, false_iff]
    omega
  | succ k ih =>
    intro a x
    simp only [dayRangeAux, List.mem_cons, ih]
    omega

theorem mem_dayRange {a b x : Int} : x ∈ dayRange a b ↔ a ≤ x ∧ x ≤ b := by
  unfold dayRange
  rw [dayRangeAux_mem]
  omega

theorem dayRange_eq_nil {a b : Int} (h : b < a) : dayRange a b = [] := by
  unfold dayRange
  have h0 : (b + 1 - a).toNat = 0 := by omega
  rw [h0]
  rfl

theorem dayRange_eq_cons {a b : Int} (h : a ≤ b) : dayRange a b = a :: dayRange (a + 1) b := by
  unfold dayRange
  have h1 : (b + 1 - a).toNat = (b + 1 - (a + 1)).toNat + 1 := by omega
  rw [h1]
  rfl

theorem dayRangeAux_pairwise_lt : ∀ (k : Nat) (a : Int), (dayRangeAux a k).Pairwise (· < ·) := by
  intro k
  induction k with
  | zero => intro a; exact List.Pairwise.nil
  | succ k ih =>
    intro a
    refine List.Pairwise.cons ?_ (ih (a + 1))
    intro x hx
    rw [dayRangeAux_mem] at hx
    omega

theorem dayRange_pairwise_lt (a b : Int) : (dayRange a b).Pairwise (· < ·) :=
  dayRangeAux_pairwise_lt _ _

theorem dayRange_nodup (a b : Int) : (dayRange a b).Nodup :=
  (dayRange_pairwise_lt a b).imp ne_of_lt

/-! ## C9: counting business days over a closed interval -/

theorem countBusinessDays_eq_card (a b : Int) :
    countBusinessDays a b =
      (((Finset.Icc a b).filter fun d => isBusinessDay d = true).card : Int) := by
  unfold countBusinessDays
  congr 1
  have hfil : ((dayRange a b).filter isBusinessDay).Nodup := (dayRange_nodup a b).filter _
  rw [← List.toFinset_card_of_nodup hfil]
  congr 1
  ext x
  simp only [List.mem_toFinset, List.mem_filter, Finset.mem_filter, Finset.mem_Icc,
    mem_dayRange]

/-- **C9.** `countBusinessDays(start, end)` is the number of business days
in the closed interval `[start, end]`; it is 0 when `start > end`, and on a
single day it is 1 iff that day is a business day. -/
theorem countBusinessDays_spec (a b : Int) :
    countBusinessDays a b =
      (((Finset.Icc a b).filter fun d => isBusinessDay d = true).card : Int) ∧
    (b < a → countBusinessDays a b = 0) ∧
    countBusinessDays a a = if isBusinessDay a then 1 else 0 := by
  refine ⟨countBusinessDays_eq_card a b, fun h => ?_, ?_⟩
  · unfold countBusinessDays
    rw [dayRange_eq_nil h]
    rfl
  · unfold countBusinessDays
    rw [dayRange_eq_cons le_rfl, dayRange_eq_nil (by omega)]
    by_cases h : isBusinessDay a = true
    · rw [List.filter_cons_of_pos h, if_pos h]
      rfl
    · rw [List.filter_cons_of_neg h, if_neg h]
      rfl

/-- Witness for C9: `countBusinessDays` on the reversed interval `[5, 4]`
returns 0. -/
theorem countBusinessDays_spec_witness : countBusinessDays 5 4 = 0 :=
  (countBusinessDays_spec 5 4).2.1 (by decide)

/-! ## C7 and C10: the Nth-business-day scan -/

theorem findNthAux_none {p : Int → Bool} {n : Int} :
    ∀ (l : List Int) (c : Int), n ≤ c → findNthAux p n l c = none := by
  intro l
  induction l with
  | nil => intro c _; rfl
  | cons d ds ih =>
    intro c hc
    unfold findNthAux
    by_cases hp : p d = true
    · rw [if_pos hp, if_neg (by omega)]
      exact ih (c + 1) (by omega)
    · rw [if_neg hp]
      exact ih c hc

theorem findNthAux_eq_get? {p : Int → Bool} {n : Int} :
    ∀ (l : List Int) (c : Int), c < n →
      findNthAux p n l c = (l.filter p).get? (n - c - 1).toNat := by
  intro l
  induction l with
  | nil => intro c _; rfl
  | cons d ds ih =>
    intro c hc
    unfold findNthAux
    by_cases hp : p d = true
    · rw [if_pos hp, List.filter_cons_of_pos hp]
      by_cases he : c + 1 = n
      · rw [if_pos he]
        have h0 : (n - c - 1).toNat = 0 := by omega
        rw [h0]
        rfl
      · rw [if_neg he, ih (c + 1) (by omega)]
        have h1 : (n - c - 1).toNat = (n - (c + 1) - 1).toNat + 1 := by omega
        rw [h1]
        rfl
    · rw [if_neg hp, List.filter_cons_of_neg hp]
      exact ih c hc

theorem getNthBusinessDayOfMonth_eq_get? (year month n : Int) :
    getNthBusinessDayOfMonth year month n =
      if 1 ≤ n then (getBusinessDaysOfMonth year month).get? (n - 1).toNat else none := by
  unfold getNthBusinessDayOfMonth getBusinessDaysOfMonth
  by_cases h : 1 ≤ n
  · rw [if_pos h, findNthAux_eq_get? _ 0 (by omega)]
    have h1 : n - 0 - 1 = n - 1 := by ring
    rw [h1]
  · rw [if_neg h]
    exact findNthAux_none _ 0 (by omega)

/-- **C10.** `getNthBusinessDayOfMonth(y, m, n)` is optional indexing into
the ascending list `getBusinessDaysOfMonth(y, m)`: the `(n-1)`-th element
for `1 ≤ n` within range, `null` for every `n` outside, including
`n ≤ 0`. -/
theorem getNthBusinessDayOfMonth_index_spec (year month n : Int) :
    getNthBusinessDayOfMonth year month n =
      (if 1 ≤ n then (getBusinessDaysOfMonth year month).get? (n - 1).toNat else none) ∧
    (getBusinessDaysOfMonth year month).Pairwise (· < ·) :=
  ⟨getNthBusinessDayOfMonth_eq_get? year month n,
   (dayRange_pairwise_lt _ _).sublist (List.filter_sublist _)⟩

theorem filter_get?_count {p : Int → Bool} :
    ∀ (k : Nat) (a : Int) (j : Nat) (d : Int),
      ((dayRangeAux a k).filter p).get? j = some d →
      ((dayRange a d).filter p).length = j + 1 := by
  intro k
  induction k with
  | zero =>
    intro a j d h
    simp [dayRangeAux] at h
  | succ k ih =>
    intro a j d h
    have hcons : dayRangeAux a (k + 1) = a :: dayRangeAux (a + 1) k := rfl
    rw [hcons] at h
    by_cases hp : p a = true
    · rw [List.filter_cons_of_pos hp] at h
      cases j with
      | zero =>
        have hd : a = d := by simpa using h
        subst hd
        rw [dayRange_eq_cons le_rfl, dayRange_eq_nil (show a < a + 1 by omega),
          List.filter_cons_of_pos hp]
        rfl
      | succ j' =>
        rw [List.get?_cons_succ] at h
        have hmem : d ∈ dayRangeAux (a + 1) k :=
          List.mem_of_mem_filter (List.get?_mem h)
        have hd : a + 1 ≤ d := ((dayRangeAux_mem _ _ _).mp hmem).1
        rw [dayRange_eq_cons (by omega : a ≤ d), List.filter_cons_of_pos hp,
          List.length_cons, ih (a + 1) j' d h]
    · rw [List.filter_cons_of_neg hp] at h
      have hmem : d ∈ dayRangeAux (a + 1) k :=
        List.mem_of_mem_filter (List.get?_mem h)
      have hd : a + 1 ≤ d := ((dayRangeAux_mem _ _ _).mp hmem).1
      rw [dayRange_eq_cons (by omega : a ≤ d), List.filter_cons_of_neg hp,
        ih (a + 1) j d h]

/-- **C7.** For `n ≥ 1`, `getNthBusinessDayOfMonth(y, m, n)` is `null`
exactly when the month has fewer than `n` business days; otherwise it
returns a business day `d` within the month such that exactly `n` business
days lie in `[first-of-month, d]` — i.e. the day where the running
business-day count first equals `n`. -/
theorem getNthBusinessDayOfMonth_spec (year month n : Int) (hn : 1 ≤ n) :
    (getNthBusinessDayOfMonth year month n = none ↔
      countBusinessDays (mkDate year month 1) (mkDate year (month + 1) 0) < n) ∧
    ∀ d, getNthBusinessDayOfMonth year month n = some d →
      isBusinessDay d = true ∧
      mkDate year month 1 ≤ d ∧ d ≤ mkDate year (month + 1) 0 ∧
      countBusinessDays (mkDate year month 1) d = n := by
  constructor
  · rw [getNthBusinessDayOfMonth_eq_get?, if_pos hn, List.get?_eq_none]
    unfold getBusinessDaysOfMonth countBusinessDays
    omega
  · intro d hd
    rw [getNthBusinessDayOfMonth_eq_get?, if_pos hn] at hd
    have hmem := List.get?_mem hd
    unfold getBusinessDaysOfMonth at hmem
    have hp : isBusinessDay d = true := List.of_mem_filter hmem
    have hbounds := mem_dayRange.mp (List.mem_of_mem_filter hmem)
    refine ⟨hp, hbounds.1, hbounds.2, ?_⟩
    unfold getBusinessDaysOfMonth at hd
    have hcount := filter_get?_count _ (mkDate year month 1) _ d hd
    unfold countBusinessDays
    omega

/-- Witness for C7: the 2nd business day of January 2025 is January 3
(January 1 is a holiday, January 2 the 1st business day). -/
theorem getNthBusinessDayOfMonth_spec_witness :
    isBusinessDay (mkDate 2025 0 3) = true ∧
    mkDate 2025 0 1 ≤ mkDate 2025 0 3 ∧ mkDate 2025 0 3 ≤ mkDate 2025 (0 + 1) 0 ∧
    countBusinessDays (mkDate 2025 0 1) (mkDate 2025 0 3) = 2 :=
  (getNthBusinessDayOfMonth_spec 2025 0 2 (by decide)).2 (mkDate 2025 0 3) (by decide)

/-! ## Lemmas about the month loop -/

theorem loopMeses_nil (i f dias hoy idc : Int) : loopMeses i f dias hoy [] idc = [] := rfl

theorem loopMeses_cons_some {i f dias t d : Int} (hoy : Int) (ts : List Int) (idc : Int)
    (h : emitMonth i f dias t = some d) :
    loopMeses i f dias hoy (t :: ts) idc =
      { id := idc, fecha := d, estado := estadoProvisional hoy d, mes := t }
        :: loopMeses i f dias hoy ts (idc + 1) := by
  show (match emitMonth i f dias t with
    | some diaPago =>
      { id := idc, fecha := diaPago, estado := estadoProvisional hoy diaPago, mes := t }
        :: loopMeses i f dias hoy ts (idc + 1)
    | none => loopMeses i f dias hoy ts idc) =
    { id := idc, fecha := d, estado := estadoProvisional hoy d, mes := t }
      :: loopMeses i f dias hoy ts (idc + 1)
  rw [h]

theorem loopMeses_cons_none {i f dias t : Int} (hoy : Int) (ts : List Int) (idc : Int)
    (h : emitMonth i f dias t = none) :
    loopMeses i f dias hoy (t :: ts) idc = loopMeses i f dias hoy ts idc := by
  show (match emitMonth i f dias t with
    | some diaPago =>
      { id := idc, fecha := diaPago, estado := estadoProvisional hoy diaPago, mes := t }
        :: loopMeses i f dias hoy ts (idc + 1)
    | none => loopMeses i f dias hoy ts idc) = loopMeses i f dias hoy ts idc
  rw [h]

theorem estadoProvisional_eq (hoy d : Int) :
    estadoProvisional hoy d =
      if hoy ≤ d ∧ d ≤ hoy + 10 then Estado.warning else Estado.normal := by
  simp only [estadoProvisional, calcularDiasHastaFecha]
  by_cases h1 : d - hoy < 0
  · rw [if_pos h1, if_neg (by omega)]
  · by_cases h2 : d - hoy ≤ 10
    · rw [if_neg h1, if_pos h2, if_pos (by omega)]
    · rw [if_neg h1, if_neg h2, if_neg (by omega)]

theorem estadoProvisional_ne_success (hoy d : Int) :
    estadoProvisional hoy d ≠ Estado.success := by
  rw [estadoProvisional_eq]
  split_ifs <;> simp

theorem mem_monthsList {a b t : Int} : t ∈ monthsList a b ↔ a ≤ t ∧ t ≤ b := by
  unfold monthsList
  simp only [List.mem_map, List.mem_range]
  constructor
  · rintro ⟨j, hj, rfl⟩
    omega
  · intro h
    exact ⟨(t - a).toNat, by omega, by omega⟩

theorem monthsList_pairwise (a b : Int) : (monthsList a b).Pairwise (· < ·) := by
  unfold monthsList
  rw [List.pairwise_map]
  exact (List.pairwise_lt_range _).imp (fun h => by omega)

theorem monthsList_nodup (a b : Int) : (monthsList a b).Nodup :=
  (monthsList_pairwise a b).imp ne_of_lt

theorem loopMeses_mem {i f dias hoy : Int} :
    ∀ (ts : List Int) (idc : Int) (x : FechaCorte), x ∈ loopMeses i f dias hoy ts idc →
      x.mes ∈ ts ∧ emitMonth i f dias x.mes = some x.fecha ∧
      x.estado = estadoProvisional hoy x.fecha := by
  intro ts
  induction ts with
  | nil =>
    intro idc x hx
    rw [loopMeses_nil] at hx
    cases hx
  | cons t ts ih =>
    intro idc x hx
    cases hemit : emitMonth i f dias t with
    | some d =>
      rw [loopMeses_cons_some hoy ts idc hemit] at hx
      rcases List.mem_cons.mp hx with rfl | hx'
      · exact ⟨List.mem_cons_self _ _, hemit, rfl⟩
      · obtain ⟨h1, h2, h3⟩ := ih (idc + 1) x hx'
        exact ⟨List.mem_cons_of_mem _ h1, h2, h3⟩
    | none =>
      rw [loopMeses_cons_none hoy ts idc hemit] at hx
      obtain ⟨h1, h2, h3⟩ := ih idc x hx
      exact ⟨List.mem_cons_of_mem _ h1, h2, h3⟩

theorem loopMeses_map_id {i f dias hoy : Int} :
    ∀ (ts : List Int) (idc : Int),
      (loopMeses i f dias hoy ts idc).map (fun x => x.id) =
        (List.range (loopMeses i f dias hoy ts idc).length).map
          (fun j : Nat => idc + (j : Int)) := by
  intro ts
  induction ts with
  | nil => intro idc; rfl
  | cons t ts ih =>
    intro idc
    cases hemit : emitMonth i f dias t with
    | some d =>
      rw [loopMeses_cons_some hoy ts idc hemit]
      simp only [List.map_cons, List.length_cons]
      rw [ih (idc + 1), List.range_succ_eq_map]
      simp only [List.map_cons, List.map_map, Nat.cast_zero, add_zero]
      congr 1
      apply List.map_congr_left
      intro j _
      simp only [Function.comp_apply]
      push_cast
      ring
    | none =>
      rw [loopMeses_cons_none hoy ts idc hemit]
      exact ih idc

theorem loopMeses_mes_sublist {i f dias hoy : Int} :
    ∀ (ts : List Int) (idc : Int),
      List.Sublist ((loopMeses i f dias hoy ts idc).map (fun x => x.mes)) ts := by
  intro ts
  induction ts with
  | nil => intro idc; exact List.Sublist.refl _
  | cons t ts ih =>
    intro idc
    cases hemit : emitMonth i f dias t with
    | some d =>
      rw [loopMeses_cons_some hoy ts idc hemit]
      exact List.Sublist.cons₂ _ (ih (idc + 1))
    | none =>
      rw [loopMeses_cons_none hoy ts idc hemit]
      exact List.Sublist.cons _ (ih idc)

theorem getNth_some_one_le {y m n d : Int} (h : getNthBusinessDayOfMonth y m n = some d) :
    1 ≤ n := by
  by_contra hn
  rw [getNthBusinessDayOfMonth_eq_get?, if_neg hn] at h
  exact absurd h (by simp)

theorem mkDate_first (t : Int) : mkDate (t / 12) (t % 12) 1 = firstDayOfMonthT t := by
  unfold mkDate
  have h12 : 12 * (t / 12) + t % 12 = t := by omega
  rw [h12]
  ring

theorem mkDate_last (t : Int) : mkDate (t / 12) (t % 12 + 1) 0 = firstDayOfMonthT (t + 1) - 1 := by
  unfold mkDate
  have h12 : 12 * (t / 12) + (t % 12 + 1) = t + 1 := by omega
  rw [h12]
  ring

theorem emitMonth_some {i f dias t d : Int} (h : emitMonth i f dias t = some d) :
    i ≤ d ∧ d ≤ f ∧ firstDayOfMonthT t ≤ d ∧ d ≤ firstDayOfMonthT (t + 1) - 1 := by
  unfold emitMonth at h
  cases hg : getNthBusinessDayOfMonth (t / 12) (t % 12) dias with
  | none => rw [hg] at h; exact absurd h (by simp)
  | some dp =>
    rw [hg] at h
    dsimp only at h
    by_cases hcond : i ≤ dp ∧ dp ≤ f
    · rw [if_pos hcond] at h
      obtain rfl : dp = d := by simpa using h
      have hb := ((getNthBusinessDayOfMonth_spec (t / 12) (t % 12) dias
        (getNth_some_one_le hg)).2 dp hg).2
      rw [mkDate_first] at hb
      rw [mkDate_last] at hb
      exact ⟨hcond.1, hcond.2, hb.1, by omega⟩
    · rw [if_neg hcond] at h
      exact absurd h (by simp)

theorem loopMeses_fecha_pairwise {i f dias hoy : Int} (ts : List Int) (idc : Int)
    (hts : ts.Pairwise (· < ·)) :
    (loopMeses i f dias hoy ts idc).Pairwise (fun a b => a.fecha < b.fecha) := by
  have hmes : ((loopMeses i f dias hoy ts idc).map (fun x => x.mes)).Pairwise (· < ·) :=
    hts.sublist (loopMeses_mes_sublist ts idc)
  rw [List.pairwise_map] at hmes
  refine List.Pairwise.imp_of_mem ?_ hmes
  intro a b ha hb hlt
  have bA := emitMonth_some (loopMeses_mem ts idc a ha).2.1
  have bB := emitMonth_some (loopMeses_mem ts idc b hb).2.1
  have hmono : firstDayOfMonthT (a.mes + 1) ≤ firstDayOfMonthT b.mes :=
    firstDayOfMonthT_strictMono.monotone (by omega)
  omega

theorem loopMeses_countP {i f dias hoy : Int} :
    ∀ (ts : List Int) (idc : Int) (t : Int), ts.Nodup →
      (loopMeses i f dias hoy ts idc).countP (fun x => x.mes == t) =
        if t ∈ ts ∧ (emitMonth i f dias t).isSome then 1 else 0 := by
  intro ts
  induction ts with
  | nil =>
    intro idc t _
    rw [loopMeses_nil]
    simp
  | cons u ts ih =>
    intro idc t hnd
    have hnd' : ts.Nodup := (List.nodup_cons.mp hnd).2
    by_cases htu : t = u
    · subst htu
      have htnot : t ∉ ts := (List.nodup_cons.mp hnd).1
      have hc1 : ¬ (t ∈ ts ∧ (emitMonth i f dias t).isSome = true) := fun hc => htnot hc.1
      cases hemit : emitMonth i f dias t with
      | some d =>
        rw [loopMeses_cons_some hoy ts idc hemit, List.countP_cons, ih (idc + 1) t hnd',
          if_neg hc1]
        have hc2 : t ∈ t :: ts ∧ (some d : Option Int).isSome = true :=
          ⟨List.mem_cons_self _ _, rfl⟩
        rw [if_pos hc2]
        simp
      | none =>
        rw [loopMeses_cons_none hoy ts idc hemit, ih idc t hnd', if_neg hc1]
        have hc2 : ¬ (t ∈ t :: ts ∧ (none : Option Int).isSome = true) := by
          rintro ⟨-, hsome⟩
          simp at hsome
        rw [if_neg hc2]
    · have hmemiff : t ∈ u :: ts ↔ t ∈ ts := by
        rw [List.mem_cons]
        exact or_iff_right htu
      cases hemit : emitMonth i f dias u with
      | some d =>
        rw [loopMeses_cons_some hoy ts idc hemit, List.countP_cons, ih (idc + 1) t hnd']
        have hne :
            (({ id := idc, fecha := d, estado := estadoProvisional hoy d,
                mes := u } : FechaCorte).mes == t) = false := by
          simp only [beq_eq_false_iff_ne, ne_eq]
          exact fun hc => htu hc.symm
        rw [hne]
        have hzero : (if (false = true) then 1 else 0 : Nat) = 0 := rfl
        rw [hzero, Nat.add_zero]
        by_cases hts : t ∈ ts ∧ (emitMonth i f dias t).isSome = true
        · rw [if_pos hts, if_pos ⟨hmemiff.mpr hts.1, hts.2⟩]
        · rw [if_neg hts, if_neg (fun hc => hts ⟨hmemiff.mp hc.1, hc.2⟩)]
      | none =>
        rw [loopMeses_cons_none hoy ts idc hemit, ih idc t hnd']
        by_cases hts : t ∈ ts ∧ (emitMonth i f dias t).isSome = true
        · rw [if_pos hts, if_pos ⟨hmemiff.mpr hts.1, hts.2⟩]
        · rw [if_neg hts, if_neg (fun hc => hts ⟨hmemiff.mp hc.1, hc.2⟩)]

/-! ## Lemmas about the success-marking pass -/

theorem markSuccess_nil (hoy : Int) : markSuccess hoy [] = [] := rfl

theorem markSuccess_cons (hoy : Int) (a : FechaCorte) (l : List FechaCorte) :
    markSuccess hoy (a :: l) =
      if a.fecha ≥ hoy then { a with estado := Estado.success } :: l
      else a :: markSuccess hoy l := rfl

theorem markSuccess_spec (hoy : Int) :
    ∀ l : List FechaCorte,
      ((∀ x ∈ l, x.fecha < hoy) ∧ markSuccess hoy l = l) ∨
      (∃ pre x post, l = pre ++ x :: post ∧ (∀ g ∈ pre, g.fecha < hoy) ∧ hoy ≤ x.fecha ∧
        markSuccess hoy l = pre ++ ({ x with estado := Estado.success } :: post)) := by
  intro l
  induction l with
  | nil => exact Or.inl ⟨by simp, rfl⟩
  | cons a l ih =>
    by_cases h : a.fecha ≥ hoy
    · right
      exact ⟨[], a, l, rfl, by simp, h, by rw [markSuccess_cons, if_pos h]; rfl⟩
    · rcases ih with ⟨hall, heq⟩ | ⟨pre, x, post, hdecomp, hpre, hx, heq⟩
      · left
        refine ⟨?_, by rw [markSuccess_cons, if_neg h, heq]⟩
        intro x hx
        rcases List.mem_cons.mp hx with rfl | hx'
        · omega
        · exact hall x hx'
      · right
        refine ⟨a :: pre, x, post, by rw [hdecomp]; rfl, ?_, hx, ?_⟩
        · intro g hg
          rcases List.mem_cons.mp hg with rfl | hg'
          · omega
          · exact hpre g hg'
        · rw [markSuccess_cons, if_neg h, heq]
          rfl

theorem markSuccess_countP_le (hoy : Int) :
    ∀ l : List FechaCorte, (∀ x ∈ l, x.estado ≠ Estado.success) →
      (markSuccess hoy l).countP (fun x => x.estado == Estado.success) ≤ 1 := by
  intro l hl
  rcases markSuccess_spec hoy l with ⟨-, heq⟩ | ⟨pre, x, post, hdecomp, -, -, heq⟩
  · rw [heq, List.countP_eq_zero.mpr ?hz]
    · exact Nat.zero_le 1
    case hz =>
      intro x hx
      simp only [beq_iff_eq]
      exact hl x hx
  · rw [heq, List.countP_append, List.countP_cons]
    have hpre : pre.countP (fun x => x.estado == Estado.success) = 0 := by
      apply List.countP_eq_zero.mpr
      intro g hg
      simp only [beq_iff_eq]
      exact hl g (by rw [hdecomp]; exact List.mem_append_left _ hg)
    have hpost : post.countP (fun x => x.estado == Estado.success) = 0 := by
      apply List.countP_eq_zero.mpr
      intro g hg
      simp only [beq_iff_eq]
      exact hl g (by rw [hdecomp]; exact List.mem_append_right _ (List.mem_cons_of_mem _ hg))
    rw [hpre, hpost]
    simp

theorem markSuccess_map_fecha (hoy : Int) :
    ∀ l : List FechaCorte,
      (markSuccess hoy l).map (fun x => x.fecha) = l.map (fun x => x.fecha) := by
  intro l
  induction l with
  | nil => rfl
  | cons a l ih =>
    rw [markSuccess_cons]
    by_cases h : a.fecha ≥ hoy
    · rw [if_pos h]
      rfl
    · rw [if_neg h]
      simp only [List.map_cons, ih]

theorem markSuccess_map_ids (hoy : Int) :
    ∀ l : List FechaCorte,
      (markSuccess hoy l).map (fun x => x.id) = l.map (fun x => x.id) := by
  intro l
  induction l with
  | nil => rfl
  | cons a l ih =>
    rw [markSuccess_cons]
    by_cases h : a.fecha ≥ hoy
    · rw [if_pos h]
      rfl
    · rw [if_neg h]
      simp only [List.map_cons, ih]

theorem markSuccess_length (hoy : Int) :
    ∀ l : List FechaCorte, (markSuccess hoy l).length = l.length := by
  intro l
  induction l with
  | nil => rfl
  | cons a l ih =>
    rw [markSuccess_cons]
    by_cases h : a.fecha ≥ hoy
    · rw [if_pos h]
      rfl
    · rw [if_neg h]
      simp only [List.length_cons, ih]

theorem markSuccess_countP_mes (hoy t : Int) :
    ∀ l : List FechaCorte,
      (markSuccess hoy l).countP (fun x => x.mes == t) =
        l.countP (fun x => x.mes == t) := by
  intro l
  induction l with
  | nil => rfl
  | cons a l ih =>
    rw [markSuccess_cons]
    by_cases h : a.fecha ≥ hoy
    · rw [if_pos h]
      rfl
    · rw [if_neg h]
      simp only [List.countP_cons, ih]

theorem markSuccess_mem_fecha (hoy : Int) :
    ∀ (l : List FechaCorte) (x : FechaCorte), x ∈ markSuccess hoy l →
      ∃ y ∈ l, y.fecha = x.fecha := by
  intro l
  induction l with
  | nil =>
    intro x hx
    rw [markSuccess_nil] at hx
    cases hx
  | cons a l ih =>
    intro x hx
    rw [markSuccess_cons] at hx
    by_cases h : a.fecha ≥ hoy
    · rw [if_pos h] at hx
      rcases List.mem_cons.mp hx with rfl | hx'
      · exact ⟨a, List.mem_cons_self _ _, rfl⟩
      · exact ⟨x, List.mem_cons_of_mem _ hx', rfl⟩
    · rw [if_neg h] at hx
      rcases List.mem_cons.mp hx with rfl | hx'
      · exact ⟨x, List.mem_cons_self _ _, rfl⟩
      · obtain ⟨y, hy, hyf⟩ := ih x hx'
        exact ⟨y, List.mem_cons_of_mem _ hy, hyf⟩

/-! ## C2: provisional statuses and the success-marking pass -/

/-- **C2.** Each provisional entry's status is `warning` iff its date lies
in `[hoy, hoy + 10]` and `normal` otherwise (so strictly-past dates are
`normal`); the final pass is a single forward scan: either no entry is
on-or-after `hoy` and the list is returned unchanged, or the list splits as
`pre ++ x :: post` where every entry of `pre` is strictly past (keeping its
provisional status), `x` — the first entry on-or-after `hoy` — is overridden
to `success`, and `post` is untouched; consequently at most one entry of the
final list has status `success`. -/
theorem calcularFechas_success_marking (inicio fin dias hoy : Int) :
    (∀ x ∈ provisionalFechas inicio fin dias hoy,
        x.estado =
          if hoy ≤ x.fecha ∧ x.fecha ≤ hoy + 10 then Estado.warning else Estado.normal) ∧
    (((∀ x ∈ provisionalFechas inicio fin dias hoy, x.fecha < hoy) ∧
        calcularFechasConDiasHabiles inicio fin dias hoy =
          provisionalFechas inicio fin dias hoy) ∨
      (∃ pre x post,
        provisionalFechas inicio fin dias hoy = pre ++ x :: post ∧
        (∀ g ∈ pre, g.fecha < hoy) ∧ hoy ≤ x.fecha ∧
        calcularFechasConDiasHabiles inicio fin dias hoy =
          pre ++ ({ x with estado := Estado.success } :: post))) ∧
    (calcularFechasConDiasHabiles inicio fin dias hoy).countP
      (fun x => x.estado == Estado.success) ≤ 1 := by
  have hprov : ∀ x ∈ provisionalFechas inicio fin dias hoy,
      x.estado =
        if hoy ≤ x.fecha ∧ x.fecha ≤ hoy + 10 then Estado.warning else Estado.normal := by
    intro x hx
    rw [(loopMeses_mem _ _ x hx).2.2, estadoProvisional_eq]
  refine ⟨hprov, markSuccess_spec hoy _, ?_⟩
  apply markSuccess_countP_le
  intro x hx
  rw [hprov x hx]
  split_ifs <;> simp

/-- Witness for C2: in the period 2025-01-01 .. 2025-03-31 with 2 required
business days and `hoy` = 2025-01-15, the first provisional entry (due
2025-01-03, strictly past) has status `normal`. -/
theorem calcularFechas_success_marking_witness :
    Estado.normal =
      (if mkDate 2025 0 15 ≤ mkDate 2025 0 3 ∧ mkDate 2025 0 3 ≤ mkDate 2025 0 15 + 10
       then Estado.warning else Estado.normal) :=
  (calcularFechas_success_marking (mkDate 2025 0 1) (mkDate 2025 2 31) 2 (mkDate 2025 0 15)).1
    (FechaCorte.mk 1 (mkDate 2025 0 3) Estado.normal 24300) (by decide)

/-! ## C3: period invariants of the due-date list -/

theorem emitMonth_isSome_iff (inicio fin dias t : Int) :
    (emitMonth inicio fin dias t).isSome = true ↔
      ∃ d, getNthBusinessDayOfMonth (t / 12) (t % 12) dias = some d ∧
        inicio ≤ d ∧ d ≤ fin := by
  unfold emitMonth
  cases hg : getNthBusinessDayOfMonth (t / 12) (t % 12) dias with
  | none => simp
  | some dp =>
    dsimp only
    by_cases hcond : inicio ≤ dp ∧ dp ≤ fin
    · rw [if_pos hcond]
      simp [hcond]
    · rw [if_neg hcond]
      simp only [Option.isSome_none, Bool.false_eq_true, false_iff, not_exists]
      rintro d ⟨hd, h1, h2⟩
      obtain rfl : dp = d := by simpa using hd
      exact hcond ⟨h1, h2⟩

/-- **C3.** Every date in the result lies within `[inicio, fin]`; the dates
are strictly increasing (hence non-decreasing); the `id`s are exactly
`1, 2, ..., N` in order; and for each absolute month index `t`, the result
holds exactly one entry for `t` iff `t` lies between the month of `inicio`
and the month of `fin` (the months the loop visits — for a contiguous
period, exactly the calendar months intersecting it) and the month's
Nth business day exists and falls within the period, and no entry for `t`
otherwise. -/
theorem calcularFechas_invariants (inicio fin dias hoy : Int) (hperiod : inicio < fin) :
    (∀ x ∈ calcularFechasConDiasHabiles inicio fin dias hoy,
        inicio ≤ x.fecha ∧ x.fecha ≤ fin) ∧
    ((calcularFechasConDiasHabiles inicio fin dias hoy).map
      (fun x => x.fecha)).Pairwise (· < ·) ∧
    (calcularFechasConDiasHabiles inicio fin dias hoy).map (fun x => x.id) =
      (List.range (calcularFechasConDiasHabiles inicio fin dias hoy).length).map
        (fun j : Nat => 1 + (j : Int)) ∧
    ∀ t : Int,
      (calcularFechasConDiasHabiles inicio fin dias hoy).countP (fun x => x.mes == t) =
        if (12 * yearOf inicio + monthOf inicio ≤ t ∧
              t ≤ 12 * yearOf fin + monthOf fin) ∧
            (emitMonth inicio fin dias t).isSome = true
        then 1 else 0 := by
  refine ⟨?_, ?_, ?_, ?_⟩
  · intro x hx
    obtain ⟨y, hy, hyf⟩ := markSuccess_mem_fecha hoy _ x hx
    have := emitMonth_some (loopMeses_mem _ _ y hy).2.1
    omega
  · show ((markSuccess hoy (provisionalFechas inicio fin dias hoy)).map
      (fun x => x.fecha)).Pairwise (· < ·)
    rw [markSuccess_map_fecha]
    rw [List.pairwise_map]
    exact loopMeses_fecha_pairwise _ 1 (monthsList_pairwise _ _)
  · show (markSuccess hoy (provisionalFechas inicio fin dias hoy)).map (fun x => x.id) =
      (List.range (markSuccess hoy (provisionalFechas inicio fin dias hoy)).length).map
        (fun j : Nat => 1 + (j : Int))
    rw [markSuccess_map_ids, markSuccess_length]
    exact loopMeses_map_id _ 1
  · intro t
    show (markSuccess hoy (provisionalFechas inicio fin dias hoy)).countP
        (fun x => x.mes == t) = _
    rw [markSuccess_countP_mes]
    unfold provisionalFechas
    rw [loopMeses_countP _ 1 t (monthsList_nodup _ _),
      if_congr (and_congr_left' mem_monthsList) rfl rfl]

/-- Witness for C3: in the period 2025-01-01 .. 2025-03-31 with 2 required
business days and `hoy` = 2025-01-15, the entry due 2025-01-03 lies within
the period. -/
theorem calcularFechas_invariants_witness :
    mkDate 2025 0 1 ≤ mkDate 2025 0 3 ∧ mkDate 2025 0 3 ≤ mkDate 2025 2 31 :=
  (calcularFechas_invariants (mkDate 2025 0 1) (mkDate 2025 2 31) 2 (mkDate 2025 0 15)
      (by decide)).1
    (FechaCorte.mk 1 (mkDate 2025 0 3) Estado.normal 24300) (by decide)

end ControlAccesos
